import Mathlib

/-!
Verification of the rzCOBS stream decoder (`src/decoder/src/stream/rzcobs.rs`).

Bytes are modelled as `Nat` (values `< 256` in the real program); byte
sequences as `List Nat`.  Fallible operations return `Except DecodeError`.
The external `Table` is modelled as an arbitrary function from decoded
payloads to `Except DecodeError (F × Nat)` for an abstract frame type `F`,
matching the boundary contract (a structured frame plus a consumed count,
or a failure).
-/

/-- The two error kinds of the decoder crate. -/
inductive DecodeError where
  | UnexpectedEof
  | Malformed
deriving DecidableEq, Repr

/-- `data.next()` loop of the `0x80..=0xfe` and `0xff` arms: consume `n`
bytes from the (reversed) stream, in order, failing with `Malformed` when
the stream runs out (`data.next().ok_or(DecodeError::Malformed)?`).
Returns the consumed bytes in push order together with the remaining
stream. -/
def takeN : Nat → List Nat → Except DecodeError (List Nat × List Nat)
  | 0, data => .ok ([], data)
  | _ + 1, [] => .error .Malformed
  | n + 1, b :: rest =>
    match takeN n rest with
    | .error e => .error e
    | .ok (bs, rem) => .ok (b :: bs, rem)

/-- The `0x01..=0x7f` arm's `for i in 0..7` loop, phrased as a countdown:
`bitmapRun x (k+1)` first handles bit `k` of `x` (so `bitmapRun x 7`
handles bits `6, 5, …, 0`, i.e. `x & (1 << (6-i))` for `i = 0..7`): if the
bit is clear, the next stream byte is consumed and pushed; if it is set, a
zero byte is pushed.  Returns the pushed bytes in push order and the
remaining stream. -/
def bitmapRun (x : Nat) : Nat → List Nat → Except DecodeError (List Nat × List Nat)
  | 0, data => .ok ([], data)
  | k + 1, data =>
    if x &&& (1 <<< k) == 0 then
      match data with
      | [] => .error .Malformed
      | b :: rest =>
        match bitmapRun x k rest with
        | .error e => .error e
        | .ok (out, rem) => .ok (b :: out, rem)
    else
      match bitmapRun x k data with
      | .error e => .error e
      | .ok (out, rem) => .ok (0 :: out, rem)

theorem takeN_rest_length {n : Nat} {data bs rem : List Nat}
    (h : takeN n data = .ok (bs, rem)) : rem.length ≤ data.length := by
  induction n generalizing data bs rem with
  | zero => cases data <;> simp_all [takeN]
  | succ n ih =>
    cases data with
    | nil => simp [takeN] at h
    | cons b rest =>
      simp only [takeN] at h
      cases htn : takeN n rest with
      | error e => rw [htn] at h; cases h
      | ok p =>
        rw [htn] at h
        cases p with
        | mk bs' rem' =>
          simp only at h
          cases h
          have := ih htn
          simp only [List.length_cons]
          omega

theorem bitmapRun_rest_length {x k : Nat} {data out rem : List Nat}
    (h : bitmapRun x k data = .ok (out, rem)) : rem.length ≤ data.length := by
  induction k generalizing data out rem with
  | zero => simp_all [bitmapRun]
  | succ k ih =>
    simp only [bitmapRun] at h
    by_cases hbit : x &&& (1 <<< k) == 0
    · rw [if_pos hbit] at h
      cases data with
      | nil => cases h
      | cons b rest =>
        simp only at h
        cases hbr : bitmapRun x k rest with
        | error e => rw [hbr] at h; cases h
        | ok p =>
          rw [hbr] at h
          cases p with
          | mk out' rem' =>
            simp only at h
            cases h
            have := ih hbr
            simp only [List.length_cons]
            omega
    · rw [if_neg hbit] at h
      cases hbr : bitmapRun x k data with

      | error e => rw [hbr] at h; cases h
      | ok p =>
        rw [hbr] at h
        cases p with
        | mk out' rem' =>
          simp only at h
          cases h
          exact ih hbr

/-- The main loop of `rzcobs_decode`, acting on the already-reversed input
stream (`data.iter().rev()`); the result is the accumulator `res` in push
order (before the final `res.reverse()`). -/
def rzcobsDecodeRev (l : List Nat) : Except DecodeError (List Nat) :=
  match l with
  | [] => .ok []
  | x :: data =>
    if x = 0 then .error .Malformed
    else if x ≤ 0x7f then
      match h : bitmapRun x 7 data with
      | .error e => .error e
      | .ok (out, rem) =>
        match rzcobsDecodeRev rem with
        | .error e => .error e
        | .ok r => .ok (out ++ r)
    else if x ≤ 0xfe then
      match h : takeN ((x &&& 0x7f) + 7) data with
      | .error e => .error e
      | .ok (bs, rem) =>
        match rzcobsDecodeRev rem with
        | .error e => .error e
        | .ok r => .ok (0 :: bs ++ r)
    else
      match h : takeN 134 data with
      | .error e => .error e
      | .ok (bs, rem) =>
        match rzcobsDecodeRev rem with
        | .error e => .error e
        | .ok r => .ok (bs ++ r)
termination_by l.length
decreasing_by
  · have := bitmapRun_rest_length h; simp; omega
  · have := takeN_rest_length h; simp; omega
  · have := takeN_rest_length h; simp; omega

/-- `rzcobs_decode`: decode a full rzCOBS-encoded message (the bytes
strictly before a separator).  Processes the input from its last byte
toward its first and reverses the accumulated output at the end. -/
def rzcobs_decode (data : List Nat) : Except DecodeError (List Nat) :=
  match rzcobsDecodeRev data.reverse with
  | .error e => .error e
  | .ok res => .ok res.reverse

/-- `Iterator::position(p)`: index of the first element satisfying `p`. -/
def position (p : Nat → Bool) : List Nat → Option Nat
  | [] => none
  | a :: l => if p a then some 0 else (position p l).map (· + 1)

/-- `received_inner`: trim zeros from the left of the incoming data when
the buffer is empty, then append (`raw.extend_from_slice(data)`). -/
def received_inner (raw data : List Nat) : List Nat :=
  if raw.isEmpty then raw ++ data.dropWhile (· == 0) else raw ++ data

/-- `advance_inner`: pop off the frame `[0, zero)` plus one or more
separator zero-bytes; clear the buffer when no non-zero byte remains. -/
def advance_inner (raw : List Nat) (zero : Nat) : List Nat :=
  match position (fun b => b != 0) (raw.drop zero) with
  | some nonzero => raw.drop (zero + nonzero)
  | none => []

/-- `<Rzcobs as StreamDecoder>::decode`, with the buffer passed
explicitly: returns the buffer after the call together with the call's
result.  The external `Table::decode` is the parameter `table`. -/
def Rzcobs.decode {F : Type} (table : List Nat → Except DecodeError (F × Nat))
    (raw : List Nat) : List Nat × Except DecodeError F :=
  match position (fun b => b == 0) raw with
  | none => (raw, .error .UnexpectedEof)
  | some zero =>
    let frame := rzcobs_decode (raw.take zero)
    let raw' := advance_inner raw zero
    match frame with
    | .error e => (raw', .error e)
    | .ok f =>
      match table f with
      | .ok (fr, _consumed) => (raw', .ok fr)
      | .error .UnexpectedEof => (raw', .error .Malformed)
      | .error .Malformed => (raw', .error .Malformed)

/-- `RzcobsOwned::frame_and_decode`, with the buffer passed explicitly:
returns the buffer after the call, the returned `bool`, and the argument
triple the callback was invoked with (`none` when it was not invoked):
the still-encoded frame bytes, the optional frame, and `decoded_len`. -/
def RzcobsOwned.frame_and_decode {F : Type}
    (table : List Nat → Except DecodeError (F × Nat)) (raw : List Nat) :
    List Nat × Bool × Option (List Nat × Option F × Nat) :=
  match position (fun b => b == 0) raw with
  | none => (raw, false, none)
  | some zero =>
    let frame := rzcobs_decode (raw.take zero)
    let decoded_len := match frame with | .ok f => f.length | .error _ => 0
    match frame with
    | .ok f =>
      match table f with
      | .ok (fr, _consumed) =>
        (advance_inner raw zero, true, some (raw.take zero, some fr, decoded_len))
      | .error _ =>
        (advance_inner raw zero, true, some (raw.take zero, none, decoded_len))
    | .error _ =>
      (advance_inner raw zero, true, some (raw.take zero, none, decoded_len))

/-- Decoder states reachable from the freshly constructed decoder (empty
buffer) by any sequence of `received` and `decode` / `frame_and_decode`
calls. -/
inductive Reachable {F : Type} (table : List Nat → Except DecodeError (F × Nat)) :
    List Nat → Prop where
  | init : Reachable table []
  | recv (raw data : List Nat) : Reachable table raw →
      Reachable table (received_inner raw data)
  | dec (raw : List Nat) : Reachable table raw →
      Reachable table (Rzcobs.decode table raw).1
  | batch (raw : List Nat) : Reachable table raw →
      Reachable table (RzcobsOwned.frame_and_decode table raw).1

/-! ### Helper lemmas -/

theorem takeN_char (n : Nat) (data : List Nat) :
    takeN n data =
      if n ≤ data.length then .ok (data.take n, data.drop n) else .error .Malformed := by
  induction n generalizing data with
  | zero => simp [takeN]
  | succ n ih =>
    cases data with
    | nil => simp [takeN]
    | cons b rest =>
      simp only [takeN, ih, List.length_cons]
      by_cases h : n ≤ rest.length
      · rw [if_pos h, if_pos (by omega)]
        simp
      · rw [if_neg h, if_neg (by omega)]

theorem takeN_error {n : Nat} {data : List Nat} {e : DecodeError}
    (h : takeN n data = .error e) : e = .Malformed := by
  rw [takeN_char] at h
  split at h
  · cases h
  · cases h; rfl

theorem bitmapRun_error {x k : Nat} {data : List Nat} {e : DecodeError}
    (h : bitmapRun x k data = .error e) : e = .Malformed := by
  induction k generalizing data with
  | zero => simp [bitmapRun] at h
  | succ k ih =>
    simp only [bitmapRun] at h
    split at h
    · cases data with
      | nil => cases h; rfl
      | cons b rest =>
        simp only at h
        cases hbr : bitmapRun x k rest with
        | error e' => rw [hbr] at h; cases h; exact ih hbr
        | ok p => rw [hbr] at h; cases p; simp only at h; cases h
    · cases hbr : bitmapRun x k data with
      | error e' => rw [hbr] at h; cases h; exact ih hbr
      | ok p => rw [hbr] at h; cases p; simp only at h; cases h

/-- The per-flag count of clear bits the bitmap arm needs from the input:
number of clear bits among bits `k-1, …, 0` of `x`. -/
def clearCount (x : Nat) : Nat → Nat
  | 0 => 0
  | k + 1 => (if x &&& (1 <<< k) == 0 then 1 else 0) + clearCount x k

theorem bitmapRun_ok_iff (x k : Nat) (data : List Nat) :
    (∃ p, bitmapRun x k data = .ok p) ↔ clearCount x k ≤ data.length := by
  induction k generalizing data with
  | zero => simp [bitmapRun, clearCount]
  | succ k ih =>
    simp only [bitmapRun, clearCount]
    by_cases hbit : (x &&& (1 <<< k) == 0) = true
    · rw [if_pos hbit, if_pos hbit]
      cases data with
      | nil => simp
      | cons b rest =>
        simp only [List.length_cons]
        constructor
        · rintro ⟨p, hp⟩
          cases hbr : bitmapRun x k rest with
          | error e => rw [hbr] at hp; cases hp
          | ok q =>
            have := (ih rest).mp ⟨q, hbr⟩
            omega
        · intro hle
          obtain ⟨⟨q1, q2⟩, hq⟩ := (ih rest).mpr (by omega)
          exact ⟨(b :: q1, q2), by rw [hq]⟩
    · rw [if_neg hbit, if_neg hbit]
      simp only [Nat.zero_add]
      constructor
      · rintro ⟨p, hp⟩
        cases hbr : bitmapRun x k data with
        | error e => rw [hbr] at hp; cases hp
        | ok q => exact (ih data).mp ⟨q, hbr⟩
      · intro hle
        obtain ⟨⟨q1, q2⟩, hq⟩ := (ih data).mpr hle
        exact ⟨(0 :: q1, q2), by rw [hq]⟩

theorem bitmapRun_ok_spec {x k : Nat} {data out rem : List Nat}
    (h : bitmapRun x k data = .ok (out, rem)) :
    out.length = k ∧ rem = data.drop (clearCount x k) := by
  induction k generalizing data out rem with
  | zero => simp_all [bitmapRun, clearCount]
  | succ k ih =>
    simp only [bitmapRun, clearCount] at h ⊢
    by_cases hbit : (x &&& (1 <<< k) == 0) = true
    · rw [if_pos hbit] at h
      rw [if_pos hbit]
      cases data with
      | nil => cases h
      | cons b rest =>
        simp only at h
        cases hbr : bitmapRun x k rest with
        | error e => rw [hbr] at h; cases h
        | ok q =>
          rw [hbr] at h
          cases q with
          | mk out' rem' =>
            simp only at h
            cases h
            have ⟨h1, h2⟩ := ih hbr
            refine ⟨by simp [h1], ?_⟩
            rw [h2]
            simp [List.drop_drop, Nat.add_comm]
    · rw [if_neg hbit] at h
      rw [if_neg hbit]
      cases hbr : bitmapRun x k data with
      | error e => rw [hbr] at h; cases h
      | ok q =>
        rw [hbr] at h
        cases q with
        | mk out' rem' =>
          simp only at h
          cases h
          have ⟨h1, h2⟩ := ih hbr
          refine ⟨by simp [h1], ?_⟩
          simpa using h2

theorem position_eq_none_iff (p : Nat → Bool) (l : List Nat) :
    position p l = none ↔ ∀ a ∈ l, p a = false := by
  induction l with
  | nil => simp [position]
  | cons a l ih =>
    simp only [position]
    by_cases h : p a
    · simp [h]
    · simp only [if_neg h]
      constructor
      · intro hmap b hb
        have hnone : position p l = none := by
          cases hpos : position p l <;> simp [hpos] at hmap ⊢
        rcases List.mem_cons.mp hb with rfl | hb'
        · simpa using h
        · exact (ih.mp hnone) b hb'
      · intro hall
        have hnone : position p l = none :=
          ih.mpr (fun b hb => hall b (List.mem_cons.mpr (Or.inr hb)))
        simp [hnone]

theorem position_drop_dropWhile (t : List Nat) :
    (match position (fun b => b != 0) t with
     | some i => t.drop i
     | none => ([] : List Nat)) = t.dropWhile (fun b => b == 0) := by
  induction t with
  | nil => simp [position]
  | cons a t ih =>
    by_cases h : a = 0
    · subst h
      simp only [position, List.dropWhile]
      cases hp : position (fun b => b != 0) t with
      | none => rw [hp] at ih; simpa using ih
      | some i => rw [hp] at ih; simpa using ih
    · have ha : (a == 0) = false := by simpa using h
      have ha' : (a != 0) = true := by simpa using h
      simp [position, List.dropWhile, ha, ha']

theorem advance_inner_eq (raw : List Nat) (z : Nat) :
    advance_inner raw z = (raw.drop z).dropWhile (fun b => b == 0) := by
  unfold advance_inner
  rw [← position_drop_dropWhile (raw.drop z)]
  cases hp : position (fun b => b != 0) (raw.drop z) with
  | none => simp
  | some i => simp [List.drop_drop, Nat.add_comm]

theorem dropWhile_zero_head (l : List Nat) :
    l.dropWhile (fun b => b == 0) = [] ∨
      ∃ b t, l.dropWhile (fun b => b == 0) = b :: t ∧ b ≠ 0 := by
  induction l with
  | nil => simp
  | cons a l ih =>
    by_cases h : a = 0
    · subst h; simpa [List.dropWhile] using ih
    · right
      have ha : (a == 0) = false := by simpa using h
      exact ⟨a, l, by simp [List.dropWhile, ha], h⟩

theorem and_one_shiftLeft_eq_zero (x k : Nat) :
    (x &&& (1 <<< k) == 0) = !x.testBit k := by
  have h1 : (1 : Nat) <<< k = 2 ^ k := by
    rw [Nat.shiftLeft_eq, Nat.one_mul]
  rw [h1, Nat.and_two_pow]
  cases h : x.testBit k
  · simp
  · simp [Nat.pow_eq_zero]

theorem rzcobsDecodeRev_nil : rzcobsDecodeRev [] = .ok [] := by
  rw [rzcobsDecodeRev]

theorem rzcobsDecodeRev_zero (data : List Nat) :
    rzcobsDecodeRev (0 :: data) = .error .Malformed := by
  rw [rzcobsDecodeRev]
  simp

theorem rzcobsDecodeRev_bitmap (x : Nat) (data : List Nat) (h1 : x ≠ 0) (h2 : x ≤ 0x7f) :
    rzcobsDecodeRev (x :: data) =
      match bitmapRun x 7 data with
      | .error e => .error e
      | .ok (out, rem) =>
        match rzcobsDecodeRev rem with
        | .error e => .error e
        | .ok r => .ok (out ++ r) := by
  rw [rzcobsDecodeRev]
  simp only [if_neg h1, if_pos h2]
  split <;> (rename_i heq; rw [heq])

theorem rzcobsDecodeRev_run (x : Nat) (data : List Nat) (h1 : 0x80 ≤ x) (h2 : x ≤ 0xfe) :
    rzcobsDecodeRev (x :: data) =
      match takeN ((x &&& 0x7f) + 7) data with
      | .error e => .error e
      | .ok (bs, rem) =>
        match rzcobsDecodeRev rem with
        | .error e => .error e
        | .ok r => .ok (0 :: bs ++ r) := by
  rw [rzcobsDecodeRev]
  simp only [if_neg (by omega : ¬ x = 0), if_neg (by omega : ¬ x ≤ 0x7f), if_pos h2]
  split <;> (rename_i heq; rw [heq])

theorem rzcobsDecodeRev_ff (x : Nat) (data : List Nat) (h1 : 0xff ≤ x) :
    rzcobsDecodeRev (x :: data) =
      match takeN 134 data with
      | .error e => .error e
      | .ok (bs, rem) =>
        match rzcobsDecodeRev rem with
        | .error e => .error e
        | .ok r => .ok (bs ++ r) := by
  rw [rzcobsDecodeRev]
  simp only [if_neg (by omega : ¬ x = 0), if_neg (by omega : ¬ x ≤ 0x7f),
    if_neg (by omega : ¬ x ≤ 0xfe)]
  split <;> (rename_i heq; rw [heq])

/-- The spec's reading of the `0x01..=0x7f` arm (§4.1), on an explicit
list of flag positions: a set flag appends a single zero byte; a clear
flag consumes the next not-yet-processed input byte and appends it
unchanged; a clear flag with no byte available fails with `Malformed`. -/
def bitmapSpecFlags (c : Nat) : List Nat → List Nat → Except DecodeError (List Nat × List Nat)
  | [], rest => .ok ([], rest)
  | i :: is, rest =>
    if c.testBit i then
      match bitmapSpecFlags c is rest with
      | .error e => .error e
      | .ok (out, rem) => .ok (0 :: out, rem)
    else
      match rest with
      | [] => .error .Malformed
      | b :: rest' =>
        match bitmapSpecFlags c is rest' with
        | .error e => .error e
        | .ok (out, rem) => .ok (b :: out, rem)

/-- The spec's reading of the `0x01..=0x7f` arm: the low 7 bits of `c` as
7 ordered flags, evaluated from the most significant of the 7 bits (bit 6)
to the least significant (bit 0). -/
def bitmapSpec (c : Nat) (rest : List Nat) : Except DecodeError (List Nat × List Nat) :=
  bitmapSpecFlags c [6, 5, 4, 3, 2, 1, 0] rest

theorem bitmapRun_eq_specFlags (c k : Nat) (rest : List Nat) :
    bitmapRun c k rest = bitmapSpecFlags c ((List.range k).reverse) rest := by
  induction k generalizing rest with
  | zero => simp [bitmapRun, bitmapSpecFlags]
  | succ k ih =>
    have hr : (List.range (k + 1)).reverse = k :: (List.range k).reverse := by
      rw [List.range_succ, List.reverse_append]
      simp
    rw [hr]
    simp only [bitmapRun, bitmapSpecFlags, and_one_shiftLeft_eq_zero]
    cases hbit : c.testBit k
    · simp only [hbit, Bool.not_false, if_true]
      cases rest with
      | nil => simp
      | cons b rest' => simp [ih]
    · simp only [hbit, Bool.not_true, if_false]
      rw [ih]
      simp

/-- The bitmap arm of the code is exactly the spec's 7-ordered-flags
description. -/
theorem bitmapRun_eq_bitmapSpec (c : Nat) (rest : List Nat) :
    bitmapRun c 7 rest = bitmapSpec c rest := by
  rw [bitmapRun_eq_specFlags]
  rw [show (List.range 7).reverse = [6, 5, 4, 3, 2, 1, 0] from by decide]
  rfl

/-- The spec's failure condition (§4.1, C3): walking the reversed input
construct by construct, decoding fails exactly when a consumed control
byte is `0x00` or a construct requires more input bytes than remain (the
number of clear flags among the low 7 bits for a bitmap byte;
`(c &&& 0x7f) + 7` bytes for `0x80..=0xfe`; 134 bytes for `0xff`). -/
def rzcobsWf (l : List Nat) : Bool :=
  match l with
  | [] => true
  | x :: data =>
    if x = 0 then false
    else if x ≤ 0x7f then
      decide (clearCount x 7 ≤ data.length) && rzcobsWf (data.drop (clearCount x 7))
    else if x ≤ 0xfe then
      decide ((x &&& 0x7f) + 7 ≤ data.length) && rzcobsWf (data.drop ((x &&& 0x7f) + 7))
    else
      decide (134 ≤ data.length) && rzcobsWf (data.drop 134)
termination_by l.length
decreasing_by all_goals simp; omega

theorem rzcobsWf_nil : rzcobsWf [] = true := by rw [rzcobsWf]

theorem rzcobsWf_cons (x : Nat) (data : List Nat) :
    rzcobsWf (x :: data) =
      if x = 0 then false
      else if x ≤ 0x7f then
        decide (clearCount x 7 ≤ data.length) && rzcobsWf (data.drop (clearCount x 7))
      else if x ≤ 0xfe then
        decide ((x &&& 0x7f) + 7 ≤ data.length) && rzcobsWf (data.drop ((x &&& 0x7f) + 7))
      else
        decide (134 ≤ data.length) && rzcobsWf (data.drop 134) := by
  rw [rzcobsWf]

/-- The codec's result is always `ok` or `error Malformed`; the
`UnexpectedEof` kind is never produced by the frame codec. -/
theorem rzcobsDecodeRev_cases (l : List Nat) :
    (∃ r, rzcobsDecodeRev l = .ok r) ∨ rzcobsDecodeRev l = .error .Malformed := by
  induction l using rzcobsDecodeRev.induct with
  | case1 => exact Or.inl ⟨[], by rw [rzcobsDecodeRev]⟩
  | case2 data => exact Or.inr (rzcobsDecodeRev_zero data)
  | case3 b rest h0 h7 e he =>
    right
    rw [rzcobsDecodeRev_bitmap b rest h0 h7, he, bitmapRun_error he]
  | case4 b rest h0 h7 out rem he e hrem ih =>
    right
    rw [rzcobsDecodeRev_bitmap b rest h0 h7, he]
    simp only
    rw [hrem]
    rcases ih with ⟨r, hr⟩ | hmal
    · rw [hr] at hrem; cases hrem
    · rw [hmal] at hrem
      cases hrem
      rfl
  | case5 b rest h0 h7 out rem he r hrem ih =>
    left
    refine ⟨out ++ r, ?_⟩
    rw [rzcobsDecodeRev_bitmap b rest h0 h7, he]
    simp only
    rw [hrem]
  | case6 b rest h0 h7 hfe e he =>
    right
    rw [rzcobsDecodeRev_run b rest (by omega) (by omega), he, takeN_error he]
  | case7 b rest h0 h7 hfe out rem he e hrem ih =>
    right
    rw [rzcobsDecodeRev_run b rest (by omega) (by omega), he]
    simp only
    rw [hrem]
    rcases ih with ⟨r, hr⟩ | hmal
    · rw [hr] at hrem; cases hrem
    · rw [hmal] at hrem
      cases hrem
      rfl
  | case8 b rest h0 h7 hfe out rem he r hrem ih =>
    left
    refine ⟨0 :: out ++ r, ?_⟩
    rw [rzcobsDecodeRev_run b rest (by omega) (by omega), he]
    simp only
    rw [hrem]
  | case9 b rest h0 h7 hfe e he =>
    right
    rw [rzcobsDecodeRev_ff b rest (by omega), he, takeN_error he]
  | case10 b rest h0 h7 hfe out rem he e hrem ih =>
    right
    rw [rzcobsDecodeRev_ff b rest (by omega), he]
    simp only
    rw [hrem]
    rcases ih with ⟨r, hr⟩ | hmal
    · rw [hr] at hrem; cases hrem
    · rw [hmal] at hrem
      cases hrem
      rfl
  | case11 b rest h0 h7 hfe out rem he r hrem ih =>
    left
    refine ⟨out ++ r, ?_⟩
    rw [rzcobsDecodeRev_ff b rest (by omega), he]
    simp only
    rw [hrem]

theorem rzcobsDecodeRev_error {l : List Nat} {e : DecodeError}
    (h : rzcobsDecodeRev l = .error e) : e = .Malformed := by
  rcases rzcobsDecodeRev_cases l with ⟨r, hr⟩ | hmal
  · rw [hr] at h; cases h
  · rw [hmal] at h; cases h; rfl

theorem rzcobs_decode_error {data : List Nat} {e : DecodeError}
    (h : rzcobs_decode data = .error e) : e = .Malformed := by
  unfold rzcobs_decode at h
  cases hr : rzcobsDecodeRev data.reverse with
  | error e' =>
    rw [hr] at h
    cases h
    exact rzcobsDecodeRev_error hr
  | ok res => rw [hr] at h; cases h

theorem takeN_ok_spec {n : Nat} {data out rem : List Nat}
    (h : takeN n data = .ok (out, rem)) :
    n ≤ data.length ∧ out = data.take n ∧ rem = data.drop n := by
  rw [takeN_char] at h
  split at h
  · cases h; simp_all
  · cases h

theorem takeN_error_spec {n : Nat} {data : List Nat} {e : DecodeError}
    (h : takeN n data = .error e) : ¬ n ≤ data.length := by
  rw [takeN_char] at h
  split at h
  · cases h
  · assumption

/-- The codec succeeds exactly on inputs the spec calls well-formed. -/
theorem rzcobsDecodeRev_ok_iff_wf (l : List Nat) :
    (∃ r, rzcobsDecodeRev l = .ok r) ↔ rzcobsWf l = true := by
  induction l using rzcobsDecodeRev.induct with
  | case1 => simp [rzcobsDecodeRev_nil, rzcobsWf_nil]
  | case2 data => simp [rzcobsDecodeRev_zero, rzcobsWf_cons]
  | case3 b rest h0 h7 e he =>
    rw [rzcobsDecodeRev_bitmap b rest h0 h7, he, rzcobsWf_cons]
    have hcc : ¬ clearCount b 7 ≤ rest.length := by
      intro hle
      obtain ⟨p, hp⟩ := (bitmapRun_ok_iff b 7 rest).mpr hle
      rw [hp] at he; cases he
    simp [h0, h7, hcc]
  | case4 b rest h0 h7 out rem he e hrem ih =>
    rw [rzcobsDecodeRev_bitmap b rest h0 h7, he, rzcobsWf_cons]
    have ⟨hlen, hrem_eq⟩ := bitmapRun_ok_spec he
    have hcc : clearCount b 7 ≤ rest.length := (bitmapRun_ok_iff b 7 rest).mp ⟨_, he⟩
    have hwf : rzcobsWf rem = false := by
      cases hwf' : rzcobsWf rem
      · rfl
      · obtain ⟨r, hr⟩ := ih.mpr hwf'
        rw [hr] at hrem; cases hrem
    rw [← hrem_eq]
    simp only
    rw [hrem]
    simp [h0, h7, hcc, hwf]
  | case5 b rest h0 h7 out rem he r hrem ih =>
    rw [rzcobsDecodeRev_bitmap b rest h0 h7, he, rzcobsWf_cons]
    have ⟨hlen, hrem_eq⟩ := bitmapRun_ok_spec he
    have hcc : clearCount b 7 ≤ rest.length := (bitmapRun_ok_iff b 7 rest).mp ⟨_, he⟩
    have hwf : rzcobsWf rem = true := ih.mp ⟨r, hrem⟩
    rw [← hrem_eq]
    simp only
    rw [hrem]
    simp [h0, h7, hcc, hwf]
  | case6 b rest h0 h7 hfe e he =>
    rw [rzcobsDecodeRev_run b rest (by omega) (by omega), he, rzcobsWf_cons]
    have hlen := takeN_error_spec he
    simp [h0, h7, hfe, hlen]
  | case7 b rest h0 h7 hfe out rem he e hrem ih =>
    rw [rzcobsDecodeRev_run b rest (by omega) (by omega), he, rzcobsWf_cons]
    have ⟨hlen, _, hrem_eq⟩ := takeN_ok_spec he
    have hwf : rzcobsWf rem = false := by
      cases hwf' : rzcobsWf rem
      · rfl
      · obtain ⟨r, hr⟩ := ih.mpr hwf'
        rw [hr] at hrem; cases hrem
    rw [← hrem_eq]
    simp only
    rw [hrem]
    simp [h0, h7, hfe, hlen, hwf]
  | case8 b rest h0 h7 hfe out rem he r hrem ih =>
    rw [rzcobsDecodeRev_run b rest (by omega) (by omega), he, rzcobsWf_cons]
    have ⟨hlen, _, hrem_eq⟩ := takeN_ok_spec he
    have hwf : rzcobsWf rem = true := ih.mp ⟨r, hrem⟩
    rw [← hrem_eq]
    simp only
    rw [hrem]
    simp [h0, h7, hfe, hlen, hwf]
  | case9 b rest h0 h7 hfe e he =>
    rw [rzcobsDecodeRev_ff b rest (by omega), he, rzcobsWf_cons]
    have hlen := takeN_error_spec he
    simp [h0, h7, hfe, hlen]
  | case10 b rest h0 h7 hfe out rem he e hrem ih =>
    rw [rzcobsDecodeRev_ff b rest (by omega), he, rzcobsWf_cons]
    have ⟨hlen, _, hrem_eq⟩ := takeN_ok_spec he
    have hwf : rzcobsWf rem = false := by
      cases hwf' : rzcobsWf rem
      · rfl
      · obtain ⟨r, hr⟩ := ih.mpr hwf'
        rw [hr] at hrem; cases hrem
    rw [← hrem_eq]
    simp only
    rw [hrem]
    simp [h0, h7, hfe, hlen, hwf]
  | case11 b rest h0 h7 hfe out rem he r hrem ih =>
    rw [rzcobsDecodeRev_ff b rest (by omega), he, rzcobsWf_cons]
    have ⟨hlen, _, hrem_eq⟩ := takeN_ok_spec he
    have hwf : rzcobsWf rem = true := ih.mp ⟨r, hrem⟩
    rw [← hrem_eq]
    simp only
    rw [hrem]
    simp [h0, h7, hfe, hlen, hwf]

set_option maxRecDepth 4096 in
theorem and_mask127_le (c : Nat) (h1 : 0x80 ≤ c) (h2 : c ≤ 0xfe) :
    (c &&& 0x7f) + 7 ≤ 133 := by
  have hb : ∀ c : Nat, c < 255 → 128 ≤ c → c &&& 127 ≤ 126 := by decide
  have := hb c (by omega) h1
  omega

theorem rzcobsDecodeRev_cons_min_length {x : Nat} {data r : List Nat}
    (h : rzcobsDecodeRev (x :: data) = .ok r) : 7 ≤ r.length := by
  by_cases h0 : x = 0
  · subst h0; rw [rzcobsDecodeRev_zero] at h; cases h
  by_cases h7 : x ≤ 0x7f
  · rw [rzcobsDecodeRev_bitmap x data h0 h7] at h
    cases hbr : bitmapRun x 7 data with
    | error e => rw [hbr] at h; cases h
    | ok p =>
      rw [hbr] at h
      cases p with
      | mk out rem =>
        simp only at h
        cases hd : rzcobsDecodeRev rem with
        | error e => rw [hd] at h; cases h
        | ok r' =>
          rw [hd] at h
          cases h
          have := (bitmapRun_ok_spec hbr).1
          simp [this]
  by_cases hfe : x ≤ 0xfe
  · rw [rzcobsDecodeRev_run x data (by omega) hfe] at h
    cases htn : takeN ((x &&& 0x7f) + 7) data with
    | error e => rw [htn] at h; cases h
    | ok p =>
      rw [htn] at h
      cases p with
      | mk bs rem =>
        simp only at h
        cases hd : rzcobsDecodeRev rem with
        | error e => rw [hd] at h; cases h
        | ok r' =>
          rw [hd] at h
          cases h
          have ⟨hle, hbs, _⟩ := takeN_ok_spec htn
          have : bs.length = (x &&& 0x7f) + 7 := by
            rw [hbs]; simp [List.length_take]; omega
          simp [this]
          omega
  · rw [rzcobsDecodeRev_ff x data (by omega)] at h
    cases htn : takeN 134 data with
    | error e => rw [htn] at h; cases h
    | ok p =>
      rw [htn] at h
      cases p with
      | mk bs rem =>
        simp only at h
        cases hd : rzcobsDecodeRev rem with
        | error e => rw [hd] at h; cases h
        | ok r' =>
          rw [hd] at h
          cases h
          have ⟨hle, hbs, _⟩ := takeN_ok_spec htn
          have : bs.length = 134 := by
            rw [hbs]; simp [List.length_take]; omega
          simp [this]
          omega

example : rzcobs_decode [] = .ok [] := by
  simp [rzcobs_decode, rzcobsDecodeRev]
example : rzcobs_decode [0x7f] = .ok [0, 0, 0, 0, 0, 0, 0] := by
  simp [rzcobs_decode, rzcobsDecodeRev, bitmapRun]
example : rzcobs_decode [0x01] = .error .Malformed := by
  simp [rzcobs_decode, rzcobsDecodeRev, bitmapRun]
example : rzcobs_decode [0] = .error .Malformed := by
  simp [rzcobs_decode, rzcobsDecodeRev]
example : rzcobs_decode [1, 2, 3, 4, 5, 6, 7, 0x80] = .ok [1, 2, 3, 4, 5, 6, 7, 0] := by
  simp [rzcobs_decode, rzcobsDecodeRev, takeN]

/-! ### Claims about the frame codec -/

/-- C1: for every control byte `c` with `0x01 ≤ c ≤ 0x7f` consumed by the
codec, the low 7 bits of `c` are 7 ordered flags evaluated from the most
significant of the 7 bits to the least significant; a set flag appends a
single zero byte, a clear flag consumes the next not-yet-processed input
byte and appends it unchanged, and the codec fails with `Malformed` when a
clear flag requires a byte that is not available (`bitmapSpec` is exactly
this description).  In particular `decode [0x7f]` returns seven zero bytes
and `decode [0x01]` fails with `Malformed`. -/
theorem C1_bitmap_control_byte (c : Nat) (hc1 : 1 ≤ c) (hc2 : c ≤ 0x7f) :
    (∀ data, rzcobsDecodeRev (c :: data) =
      match bitmapSpec c data with
      | .error e => .error e
      | .ok (out, rem) =>
        match rzcobsDecodeRev rem with
        | .error e => .error e
        | .ok r => .ok (out ++ r)) ∧
    rzcobs_decode [0x7f] = .ok [0, 0, 0, 0, 0, 0, 0] ∧
    rzcobs_decode [0x01] = .error .Malformed := by
  refine ⟨?_, by simp [rzcobs_decode, rzcobsDecodeRev, bitmapRun],
    by simp [rzcobs_decode, rzcobsDecodeRev, bitmapRun]⟩
  intro data
  rw [rzcobsDecodeRev_bitmap c data (by omega) hc2, bitmapRun_eq_bitmapSpec]

theorem C1_witness : rzcobs_decode [0x01] = Except.error DecodeError.Malformed :=
  (C1_bitmap_control_byte 1 (by decide) (by decide)).2.2

/-- C2: for every control byte `c` with `0x80 ≤ c ≤ 0xfe`, letting
`n = (c &&& 0x7f) + 7` (which lies in `7..133`), the codec appends one
zero byte and then consumes and appends `n` further input bytes unchanged,
failing with `Malformed` when fewer than `n` remain; for `0xff` it
consumes and appends 134 bytes with no zero byte inserted, failing with
`Malformed` when fewer than 134 remain (the `takeN` characterization
states the consume-or-fail behaviour).  In particular
`decode [1,2,3,4,5,6,7,0x80] = [1,2,3,4,5,6,7,0]`. -/
theorem C2_run_control_byte :
    (∀ c data, 0x80 ≤ c → c ≤ 0xfe →
      (7 ≤ (c &&& 0x7f) + 7 ∧ (c &&& 0x7f) + 7 ≤ 133) ∧
      rzcobsDecodeRev (c :: data) =
        match takeN ((c &&& 0x7f) + 7) data with
        | .error e => .error e
        | .ok (bs, rem) =>
          match rzcobsDecodeRev rem with
          | .error e => .error e
          | .ok r => .ok (0 :: bs ++ r)) ∧
    (∀ data, rzcobsDecodeRev (0xff :: data) =
        match takeN 134 data with
        | .error e => .error e
        | .ok (bs, rem) =>
          match rzcobsDecodeRev rem with
          | .error e => .error e
          | .ok r => .ok (bs ++ r)) ∧
    (∀ n data, takeN n data =
        if n ≤ data.length then .ok (data.take n, data.drop n)
        else .error .Malformed) ∧
    rzcobs_decode [1, 2, 3, 4, 5, 6, 7, 0x80] = .ok [1, 2, 3, 4, 5, 6, 7, 0] := by
  refine ⟨?_, ?_, takeN_char, by simp [rzcobs_decode, rzcobsDecodeRev, takeN]⟩
  · intro c data h1 h2
    exact ⟨⟨by omega, and_mask127_le c h1 h2⟩, rzcobsDecodeRev_run c data h1 h2⟩
  · intro data
    exact rzcobsDecodeRev_ff 0xff data (by omega)

theorem C2_witness :
    7 ≤ ((0x80 : Nat) &&& 0x7f) + 7 ∧ ((0x80 : Nat) &&& 0x7f) + 7 ≤ 133 :=
  (C2_run_control_byte.1 0x80 [] (by decide) (by decide)).1

/-- C3: the frame codec either returns a decoded byte sequence or fails
with `Malformed`, never `UnexpectedEof`; it succeeds exactly when no
consumed control byte is `0x00` and no construct requires more input bytes
than remain (`rzcobsWf`); the empty input decodes to the empty output, and
`decode [0]` fails with `Malformed`. -/
theorem C3_codec_total_malformed :
    (∀ data e, rzcobs_decode data = .error e → e = .Malformed) ∧
    (∀ data, (∃ out, rzcobs_decode data = .ok out) ↔ rzcobsWf data.reverse = true) ∧
    rzcobs_decode [] = .ok [] ∧
    rzcobs_decode [0] = .error .Malformed := by
  refine ⟨fun data e h => rzcobs_decode_error h, ?_,
    by simp [rzcobs_decode, rzcobsDecodeRev],
    by simp [rzcobs_decode, rzcobsDecodeRev]⟩
  intro data
  rw [← rzcobsDecodeRev_ok_iff_wf]
  unfold rzcobs_decode
  constructor
  · rintro ⟨out, hout⟩
    cases hr : rzcobsDecodeRev data.reverse with
    | error e => rw [hr] at hout; cases hout
    | ok res => exact ⟨res, rfl⟩
  · rintro ⟨r, hr⟩
    exact ⟨r.reverse, by rw [hr]⟩

theorem C3_witness : rzcobsWf (List.reverse [0x7f]) = true :=
  (C3_codec_total_malformed.2.1 [0x7f]).mp
    ⟨[0, 0, 0, 0, 0, 0, 0], by simp [rzcobs_decode, rzcobsDecodeRev, bitmapRun]⟩

/-- C10: every bitmap control byte contributes exactly 7 output bytes, a
control byte in `0x80..0xfe` contributes `(c &&& 0x7f) + 8`, and `0xff`
contributes exactly 134, so a successful decode of a non-empty input
yields at least 7 bytes. -/
theorem C10_min_decoded_length :
    (∀ x data out rem, bitmapRun x 7 data = .ok (out, rem) → out.length = 7) ∧
    (∀ c data bs rem, 0x80 ≤ c → c ≤ 0xfe →
      takeN ((c &&& 0x7f) + 7) data = .ok (bs, rem) →
      (0 :: bs).length = (c &&& 0x7f) + 8) ∧
    (∀ data bs rem, takeN 134 data = .ok (bs, rem) → bs.length = 134) ∧
    (∀ data out, data ≠ [] → rzcobs_decode data = .ok out → 7 ≤ out.length) := by
  refine ⟨fun x data out rem h => (bitmapRun_ok_spec h).1, ?_, ?_, ?_⟩
  · intro c data bs rem h1 h2 h
    have ⟨hle, hbs, _⟩ := takeN_ok_spec h
    simp only [List.length_cons, hbs, List.length_take]
    omega
  · intro data bs rem h
    have ⟨hle, hbs, _⟩ := takeN_ok_spec h
    simp only [hbs, List.length_take]
    omega
  · intro data out hne h
    unfold rzcobs_decode at h
    cases hr : data.reverse with
    | nil =>
      exact absurd (by simpa using congrArg List.reverse hr) hne
    | cons y t =>
      rw [hr] at h
      cases hd : rzcobsDecodeRev (y :: t) with
      | error e => rw [hd] at h; cases h
      | ok res =>
        rw [hd] at h
        cases h
        simpa using rzcobsDecodeRev_cons_min_length hd

theorem C10_witness :
    [0x7f] ≠ ([] : List Nat) ∧ 7 ≤ List.length [0, 0, 0, 0, 0, 0, 0] :=
  ⟨by decide, C10_min_decoded_length.2.2.2 [0x7f] [0, 0, 0, 0, 0, 0, 0]
    (by decide) (by simp [rzcobs_decode, rzcobsDecodeRev, bitmapRun])⟩

/-! ### Stream decoder lemmas -/

theorem Rzcobs_decode_no_sep {F : Type} (table : List Nat → Except DecodeError (F × Nat))
    (raw : List Nat) (h : position (fun b => b == 0) raw = none) :
    Rzcobs.decode table raw = (raw, .error .UnexpectedEof) := by
  unfold Rzcobs.decode
  rw [h]

theorem Rzcobs_decode_fst {F : Type} (table : List Nat → Except DecodeError (F × Nat))
    (raw : List Nat) (z : Nat) (hz : position (fun b => b == 0) raw = some z) :
    (Rzcobs.decode table raw).1 = (raw.drop z).dropWhile (fun b => b == 0) := by
  unfold Rzcobs.decode
  rw [hz]
  simp only
  cases hf : rzcobs_decode (raw.take z) with
  | error e => simpa using advance_inner_eq raw z
  | ok f =>
    simp only
    cases ht : table f with
    | error e' => cases e' <;> simpa using advance_inner_eq raw z
    | ok p => cases p; simpa using advance_inner_eq raw z

theorem frame_and_decode_no_sep {F : Type}
    (table : List Nat → Except DecodeError (F × Nat)) (raw : List Nat)
    (h : position (fun b => b == 0) raw = none) :
    RzcobsOwned.frame_and_decode table raw = (raw, false, none) := by
  unfold RzcobsOwned.frame_and_decode
  rw [h]

theorem frame_and_decode_sep {F : Type}
    (table : List Nat → Except DecodeError (F × Nat)) (raw : List Nat) (z : Nat)
    (hz : position (fun b => b == 0) raw = some z) :
    RzcobsOwned.frame_and_decode table raw =
      (advance_inner raw z, true,
        some (raw.take z,
          match rzcobs_decode (raw.take z) with
          | .ok f =>
            match table f with
            | .ok (fr, _) => some fr
            | .error _ => none
          | .error _ => none,
          match rzcobs_decode (raw.take z) with
          | .ok f => f.length
          | .error _ => 0)) := by
  unfold RzcobsOwned.frame_and_decode
  rw [hz]
  simp only
  cases hf : rzcobs_decode (raw.take z) with
  | error e => simp
  | ok f =>
    simp only
    cases ht : table f with
    | error e' => simp
    | ok p => cases p; simp

/-- A concrete instance of the external Table boundary, used in the
claims' worked examples: it accepts every payload, returning the payload
itself as the frame and its full length as the consumed count. -/
def tableAll : List Nat → Except DecodeError (List Nat × Nat) :=
  fun f => .ok (f, f.length)

/-- A concrete instance of the external Table boundary that reports
`UnexpectedEof` ("more data needed") for every payload. -/
def tableEof : List Nat → Except DecodeError (List Nat × Nat) :=
  fun _ => .error .UnexpectedEof

/-! ### Claims about the stream decoders -/

/-- C4: when a decode call finds a separator at position `z`, the buffer
is advanced past the frame bytes `[0, z)`, the separator, and any
immediately following run of separator bytes, whatever the codec's
outcome; consequently, on `[malformed-bytes, 0x00, valid-frame, 0x00]`
the first decode returns `Malformed` and the immediately following decode
returns the correctly decoded second frame. -/
theorem C4_advance_resync :
    (∀ (F : Type) (table : List Nat → Except DecodeError (F × Nat))
        (raw : List Nat) (z : Nat),
      position (fun b => b == 0) raw = some z →
      (Rzcobs.decode table raw).1 = (raw.drop z).dropWhile (fun b => b == 0)) ∧
    Rzcobs.decode tableAll [1, 0, 1, 2, 3, 4, 5, 6, 7, 0x80, 0] =
      ([1, 2, 3, 4, 5, 6, 7, 0x80, 0], .error .Malformed) ∧
    Rzcobs.decode tableAll [1, 2, 3, 4, 5, 6, 7, 0x80, 0] =
      ([], .ok [1, 2, 3, 4, 5, 6, 7, 0]) := by
  refine ⟨fun F table raw z hz => Rzcobs_decode_fst table raw z hz, ?_, ?_⟩ <;>
    simp [Rzcobs.decode, position, advance_inner, tableAll,
      rzcobs_decode, rzcobsDecodeRev, takeN, bitmapRun]

theorem C4_witness :
    (Rzcobs.decode tableAll [0]).1 = (List.drop 0 [0]).dropWhile (fun b => b == 0) :=
  C4_advance_resync.1 (List Nat) tableAll [0] 0 rfl

/-- C5: in every reachable decoder state (any sequence of `received` and
decode operations from the empty buffer) the buffer is empty or its first
byte is non-zero. -/
theorem C5_reachable_invariant {F : Type}
    (table : List Nat → Except DecodeError (F × Nat)) (raw : List Nat)
    (h : Reachable table raw) : raw = [] ∨ raw.head? ≠ some 0 := by
  induction h with
  | init => exact Or.inl rfl
  | recv raw data hr ih =>
    cases raw with
    | nil =>
      rcases dropWhile_zero_head data with hnil | ⟨b, t, hcons, hb⟩
      · left; simpa [received_inner] using hnil
      · right; simp [received_inner, hcons, hb]
    | cons a t =>
      rcases ih with h1 | h2
      · cases h1
      · right
        simpa [received_inner] using h2
  | dec raw hr ih =>
    cases hp : position (fun b => b == 0) raw with
    | none => rw [Rzcobs_decode_no_sep table raw hp]; exact ih
    | some z =>
      rw [Rzcobs_decode_fst table raw z hp]
      rcases dropWhile_zero_head (raw.drop z) with hnil | ⟨b, t, hcons, hb⟩
      · left; exact hnil
      · right; rw [hcons]; simp [hb]
  | batch raw hr ih =>
    cases hp : position (fun b => b == 0) raw with
    | none => rw [frame_and_decode_no_sep table raw hp]; exact ih
    | some z =>
      rw [frame_and_decode_sep table raw z hp]
      simp only
      rw [advance_inner_eq]
      rcases dropWhile_zero_head (raw.drop z) with hnil | ⟨b, t, hcons, hb⟩
      · left; exact hnil
      · right; rw [hcons]; simp [hb]

theorem C5_witness : ([] : List Nat) = [] ∨ ([] : List Nat).head? ≠ some 0 :=
  C5_reachable_invariant tableAll [] Reachable.init

/-- C6: when the buffer contains no `0x00` byte, decode fails with
`UnexpectedEof` and leaves the buffer unchanged; when a separator is
found, the result is never `UnexpectedEof` (it is a frame or
`Malformed`). -/
theorem C6_unexpected_eof_exact :
    (∀ (F : Type) (table : List Nat → Except DecodeError (F × Nat)) (raw : List Nat),
      ¬ 0 ∈ raw → Rzcobs.decode table raw = (raw, .error .UnexpectedEof)) ∧
    (∀ (F : Type) (table : List Nat → Except DecodeError (F × Nat))
        (raw : List Nat) (z : Nat),
      position (fun b => b == 0) raw = some z →
      (Rzcobs.decode table raw).2 ≠ .error .UnexpectedEof) := by
  constructor
  · intro F table raw hnm
    have hp : position (fun b => b == 0) raw = none := by
      rw [position_eq_none_iff]
      intro a ha
      simp only [beq_eq_false_iff_ne, ne_eq]
      intro hae
      exact hnm (hae ▸ ha)
    exact Rzcobs_decode_no_sep table raw hp
  · intro F table raw z hz
    unfold Rzcobs.decode
    rw [hz]
    simp only
    cases hf : rzcobs_decode (raw.take z) with
    | error e =>
      have := rzcobs_decode_error hf
      subst this
      simp
    | ok f =>
      simp only
      cases ht : table f with
      | error e' => cases e' <;> simp
      | ok p => cases p; simp

theorem C6_witness : Rzcobs.decode tableAll [1] = ([1], .error .UnexpectedEof) :=
  C6_unexpected_eof_exact.1 (List Nat) tableAll [1] (by decide)

/-- C7: `received` drops leading `0x00` bytes from the incoming data if
and only if the buffer is currently empty, then appends the remainder
unchanged; consequently receiving `[0x00, 0x00] ++ valid-frame ++ [0x00]`
into a fresh decoder and decoding yields the frame directly, with no
intervening empty-frame error. -/
theorem C7_receive_trims_iff_empty :
    (∀ raw data, received_inner raw data =
      if raw.isEmpty then data.dropWhile (fun b => b == 0) else raw ++ data) ∧
    Rzcobs.decode tableAll
        (received_inner [] ([0, 0] ++ [1, 2, 3, 4, 5, 6, 7, 0x80] ++ [0])) =
      ([], .ok [1, 2, 3, 4, 5, 6, 7, 0]) := by
  constructor
  · intro raw data
    cases raw <;> simp [received_inner]
  · simp [received_inner, List.dropWhile, Rzcobs.decode, position, advance_inner,
      tableAll, rzcobs_decode, rzcobsDecodeRev, takeN]

/-- C8: `frame_and_decode` returns `false`, does not invoke the callback
and leaves the buffer unchanged exactly when the buffer holds no `0x00`
separator; otherwise it invokes the callback once with the still-encoded
frame bytes, a frame that is present exactly when both the codec and the
Table succeed, and a decoded-length that is the reconstructed payload
length when the codec succeeds and `0` when it fails, then advances the
buffer and returns `true`. -/
theorem C8_frame_and_decode_contract (F : Type)
    (table : List Nat → Except DecodeError (F × Nat)) (raw : List Nat) :
    (RzcobsOwned.frame_and_decode table raw = (raw, false, none) ↔ ¬ 0 ∈ raw) ∧
    (∀ z, position (fun b => b == 0) raw = some z →
      ∃ fropt len,
        RzcobsOwned.frame_and_decode table raw =
          (advance_inner raw z, true, some (raw.take z, fropt, len)) ∧
        (∀ f fr c, rzcobs_decode (raw.take z) = .ok f → table f = .ok (fr, c) →
          fropt = some fr) ∧
        (fropt.isSome = true ↔
          ∃ f, rzcobs_decode (raw.take z) = .ok f ∧ ∃ p, table f = .ok p) ∧
        (∀ f, rzcobs_decode (raw.take z) = .ok f → len = f.length) ∧
        (∀ e, rzcobs_decode (raw.take z) = .error e → len = 0)) := by
  constructor
  · constructor
    · intro heq hmem
      cases hp : position (fun b => b == 0) raw with
      | none =>
        rw [position_eq_none_iff] at hp
        have := hp 0 hmem
        simp at this
      | some z =>
        rw [frame_and_decode_sep table raw z hp] at heq
        simp at heq
    · intro hnm
      have hp : position (fun b => b == 0) raw = none := by
        rw [position_eq_none_iff]
        intro a ha
        simp only [beq_eq_false_iff_ne, ne_eq]
        intro hae
        exact hnm (hae ▸ ha)
      exact frame_and_decode_no_sep table raw hp
  · intro z hz
    refine ⟨_, _, frame_and_decode_sep table raw z hz, ?_, ?_, ?_, ?_⟩
    · intro f fr c hf ht
      simp [hf, ht]
    · cases hf : rzcobs_decode (raw.take z) with
      | error e => simp [hf]
      | ok f =>
        cases ht : table f with
        | error e' => simp [hf, ht]
        | ok p =>
          simp [hf, ht]
          exact ⟨p.1, p.2, rfl⟩
    · intro f hf
      simp [hf]
    · intro e hf
      simp [hf]

theorem C8_witness : RzcobsOwned.frame_and_decode tableAll [] = ([], false, none) :=
  ((C8_frame_and_decode_contract (List Nat) tableAll []).1).mpr (by decide)

/-- C9: once the codec has reconstructed a payload, any Table-reported
failure — including the Table's own `UnexpectedEof` — is reported to the
caller as `Malformed`, and a Table success is returned as the frame
regardless of the consumed byte count. -/
theorem C9_table_failure_is_malformed {F : Type}
    (table : List Nat → Except DecodeError (F × Nat)) (raw : List Nat) (z : Nat)
    (f : List Nat) (hz : position (fun b => b == 0) raw = some z)
    (hf : rzcobs_decode (raw.take z) = .ok f) :
    (∀ e, table f = .error e → (Rzcobs.decode table raw).2 = .error .Malformed) ∧
    (∀ fr consumed, table f = .ok (fr, consumed) →
      (Rzcobs.decode table raw).2 = .ok fr) := by
  constructor
  · intro e ht
    cases e <;> simp [Rzcobs.decode, hz, hf, ht]
  · intro fr consumed ht
    simp [Rzcobs.decode, hz, hf, ht]

theorem C9_witness : (Rzcobs.decode tableEof [0x7f, 0]).2 = .error .Malformed :=
  (C9_table_failure_is_malformed tableEof [0x7f, 0] 1 [0, 0, 0, 0, 0, 0, 0]
    rfl (by simp [rzcobs_decode, rzcobsDecodeRev, bitmapRun])).1
    .UnexpectedEof rfl
